import Mathlib

/-!
Shallow embedding of the swriter tree/metadata core (source: src/unnamed/part_000,
the authoritative App snapshot) together with proofs about the claims of the
natural-language specification.

Modelling conventions:
* JavaScript numbers that take part in the metadata arithmetic are modelled by
  `JsNum`: either a finite rational, one of the two infinities, or NaN.  The
  rationals that actually appear in the claims (such as 500 / 2000 * 100 = 25
  and ceil(500 / 250) = 2) are exactly representable as IEEE doubles and the
  IEEE operations are exact on them, so the rational model is faithful there.
* Strings are Lean `String`s; character-level scanning is done on `String.data`.
* `localStorage` is modelled as an optional stored text; a stored text is
  modelled by its JSON parse image (`StoredText`): empty, well-formed with a
  given parse result, or malformed.  A thrown JavaScript exception is modelled
  by `Except.error`.
-/

namespace SWriter

/-- A JavaScript number: a finite rational, an infinity, or NaN. -/
inductive JsNum : Type where
  | fin (q : ℚ)
  | inf
  | negInf
  | nan
  deriving DecidableEq

namespace JsNum

/-- JavaScript division `a / b` (IEEE-754 semantics on the modelled values). -/
def jsDiv : JsNum → JsNum → JsNum
  | nan, _ => nan
  | _, nan => nan
  | fin a, fin b =>
      if b = 0 then (if a = 0 then nan else if 0 < a then inf else negInf)
      else fin (a / b)
  | inf, fin b => if 0 ≤ b then inf else negInf
  | negInf, fin b => if 0 ≤ b then negInf else inf
  | fin _, inf => fin 0
  | fin _, negInf => fin 0
  | inf, inf => nan
  | inf, negInf => nan
  | negInf, inf => nan
  | negInf, negInf => nan

/-- JavaScript multiplication `a * b`. -/
def jsMul : JsNum → JsNum → JsNum
  | nan, _ => nan
  | _, nan => nan
  | fin a, fin b => fin (a * b)
  | inf, fin b => if b = 0 then nan else if 0 < b then inf else negInf
  | fin a, inf => if a = 0 then nan else if 0 < a then inf else negInf
  | negInf, fin b => if b = 0 then nan else if 0 < b then negInf else inf
  | fin a, negInf => if a = 0 then nan else if 0 < a then negInf else inf
  | inf, inf => inf
  | inf, negInf => negInf
  | negInf, inf => negInf
  | negInf, negInf => inf

/-- JavaScript `Math.min` on two arguments (NaN-propagating). -/
def jsMin : JsNum → JsNum → JsNum
  | nan, _ => nan
  | _, nan => nan
  | inf, b => b
  | a, inf => a
  | negInf, _ => negInf
  | _, negInf => negInf
  | fin a, fin b => fin (if a ≤ b then a else b)

/-- Is the number finite (neither an infinity nor NaN)? -/
def isFinite : JsNum → Bool
  | fin _ => true
  | _ => false

end JsNum

/-! ### Word counting (MetadataEngine)

Source:
```
const countWords = (content: string): number => {
  const plainText = content.replace(/<[^>]+>/g, '');
  return plainText.trim().split(/\s+/).length;
};
```
-/

/-- Whitespace, as matched by the JavaScript regexp class `\s` and by
`String.prototype.trim` (restricted to the ASCII whitespace characters; the
extra Unicode space characters of `\s` play no role in any claim). -/
def isWs (c : Char) : Bool :=
  c = ' ' || c = '\t' || c = '\n' || c = '\r' || c = '\x0b' || c = '\x0c'

/-- One left-to-right pass of `content.replace(/<[^>]+>/g, '')`.  The second
argument is the pending text since the most recent unmatched `<` (reversed);
it is nonempty exactly while a potential tag is open.  A `>` arriving when at
least one character follows the `<` closes the tag and drops it; a `>` arriving
immediately after `<` matches nothing (the regexp requires `[^>]+`), so both
characters are emitted, exactly as the global regexp scan does. -/
def stripAux : List Char → List Char → List Char
  | [], pending => pending.reverse
  | c :: rest, [] =>
      if c = '<' then stripAux rest [c] else c :: stripAux rest []
  | c :: rest, p :: pending =>
      if c = '>' then
        if pending.isEmpty then '<' :: '>' :: stripAux rest []
        else stripAux rest []
      else stripAux rest (c :: p :: pending)

/-- `content.replace(/<[^>]+>/g, '')`. -/
def stripTags (l : List Char) : List Char := stripAux l []

/-- `String.prototype.trim`: drop leading whitespace. -/
def trimLeft (l : List Char) : List Char := l.dropWhile isWs

/-- `String.prototype.trim`: drop trailing whitespace. -/
def trimRight (l : List Char) : List Char := (l.reverse.dropWhile isWs).reverse

/-- `String.prototype.trim`. -/
def jsTrim (l : List Char) : List Char := trimRight (trimLeft l)

/-- `s.split(/\s+/)` (JavaScript `String.prototype.split` with the whitespace
regexp): maximal whitespace runs are separators; an empty input yields the
single empty token, and leading/trailing separator runs yield empty boundary
tokens, exactly as in JavaScript. -/
def splitWs : List Char → List (List Char)
  | [] => [[]]
  | c :: rest =>
      if isWs c then
        match rest with
        | r :: _ => if isWs r then splitWs rest else [] :: splitWs rest
        | [] => [[], []]
      else
        match splitWs rest with
        | t :: ts => (c :: t) :: ts
        | [] => [[c]]

/-- `countWords` from the source: strip tag-like substrings, trim, split on
whitespace runs, return the number of tokens. -/
def countWords (content : String) : Nat :=
  (splitWs (jsTrim (stripTags content.data))).length

/-- Specification-side observable: the number of maximal whitespace runs in a
character list. -/
def wsRuns : List Char → Nat
  | [] => 0
  | c :: rest =>
      if isWs c then
        match rest with
        | r :: _ => if isWs r then wsRuns rest else 1 + wsRuns rest
        | [] => 1
      else wsRuns rest

/-- Specification-side observable: the number of maximal non-whitespace runs
(the whitespace-separated words) in a character list. -/
def countRuns : List Char → Nat
  | [] => 0
  | c :: rest =>
      if isWs c then countRuns rest
      else
        match rest with
        | r :: _ => if isWs r then 1 + countRuns rest else countRuns rest
        | [] => 1

/-! ### Data model -/

/-- `ProjectMetadata.status`. -/
inductive Status : Type where
  | notStarted
  | inProgress
  | completed
  deriving DecidableEq

/-- The `ProjectMetadata` interface.  `wordCountGoal` and
`completionPercentage` are JavaScript numbers (the goal can become NaN through
`parseInt` at the UI boundary; the percentage is produced by floating-point
arithmetic); the word count and reading time are always integer-valued in the
program, and the timestamps are opaque ISO strings. -/
structure ProjectMetadata : Type where
  status : Status
  wordCountGoal : JsNum
  actualWordCount : Nat
  lastModified : String
  creationDate : String
  completionPercentage : JsNum
  tags : List String
  author : String
  estimatedReadingTime : Nat
  version : String
  deriving DecidableEq

/-- `Project.type`. -/
inductive NodeType : Type where
  | project
  | chapter
  deriving DecidableEq

/-- The `Project` interface: a tree node with an ordered children list and an
optional opaque content payload. -/
inductive Project : Type where
  | mk (id : Nat) (name : String) (type : NodeType) (children : List Project)
       (content : Option String) (metadata : ProjectMetadata)

def Project.id : Project → Nat
  | .mk i _ _ _ _ _ => i

def Project.name : Project → String
  | .mk _ n _ _ _ _ => n

def Project.type : Project → NodeType
  | .mk _ _ t _ _ _ => t

def Project.children : Project → List Project
  | .mk _ _ _ ch _ _ => ch

def Project.content : Project → Option String
  | .mk _ _ _ _ co _ => co

def Project.metadata : Project → ProjectMetadata
  | .mk _ _ _ _ _ md => md

/-! ### TreeStore operations (from the source) -/

/-- The metadata record built by `handleSaveContent`:
```
const updatedMetadata = {
  ...selectedProject.metadata,
  actualWordCount: newWordCount,
  lastModified: new Date().toISOString(),
  completionPercentage: Math.min((newWordCount / selectedProject.metadata.wordCountGoal) * 100, 100),
  estimatedReadingTime: Math.ceil(newWordCount / 250)
};
```
`Math.ceil(newWordCount / 250)` is the exact natural ceiling for every word
count the program can produce (the IEEE quotient of integers this small never
rounds across an integer boundary), so it is modelled as `(w + 249) / 250` on
`Nat`. -/
def updatedMetadata (md : ProjectMetadata) (newWordCount : Nat) (now : String) :
    ProjectMetadata :=
  { md with
    actualWordCount := newWordCount
    lastModified := now
    completionPercentage :=
      JsNum.jsMin (JsNum.jsMul (JsNum.jsDiv (.fin newWordCount) md.wordCountGoal) (.fin 100))
        (.fin 100)
    estimatedReadingTime := (newWordCount + 249) / 250 }

mutual

/-- `updateProjectContent` from the source: walk the whole forest; at the node
with the given id, install the new content and the new metadata (the JavaScript
spread `{...project.metadata, ...metadata}` with a complete record on the right
replaces every field, hence `metadata := md`); otherwise recurse into nonempty
children lists. -/
def updateProjectContent (projects : List Project) (id : Nat) (content : String)
    (md : ProjectMetadata) : List Project :=
  match projects with
  | [] => []
  | p :: rest =>
      updateProjectContentNode p id content md :: updateProjectContent rest id content md

def updateProjectContentNode (p : Project) (id : Nat) (content : String)
    (md : ProjectMetadata) : Project :=
  match p with
  | .mk i n t ch co pmd =>
      if i = id then .mk i n t ch (some content) md
      else if 0 < ch.length then .mk i n t (updateProjectContent ch id content md) co pmd
      else .mk i n t ch co pmd

end

/-- `handleSaveContent` from the source, with the ambient UI inputs made
explicit: the current forest, the selected node, the serialized editor payload,
its plain-text projection, and the current timestamp.  Only chapter nodes are
saved. -/
def handleSaveContent (projects : List Project) (selected : Project)
    (content plainText now : String) : List Project :=
  if selected.type = .chapter then
    updateProjectContent projects selected.id content
      (updatedMetadata selected.metadata (countWords plainText) now)
  else projects

/-- `handleDeleteProject`: `projects.filter(project => project.id !== projectId)`
on the root list only. -/
def handleDeleteProject (projects : List Project) (projectId : Nat) : List Project :=
  projects.filter (fun p => p.id ≠ projectId)

/-- `handleDeleteChapter`: remove the chapter from the children of the
root-level node whose id is `projectId`. -/
def handleDeleteChapter (projects : List Project) (projectId chapterId : Nat) :
    List Project :=
  projects.map (fun p =>
    match p with
    | .mk i n t ch co md =>
        if i = projectId then .mk i n t (ch.filter (fun c => c.id ≠ chapterId)) co md
        else .mk i n t ch co md)

/-- The default metadata record used by every node-creation path in the source. -/
def defaultMetadata (now : String) : ProjectMetadata :=
  { status := .notStarted
    wordCountGoal := .fin 0
    actualWordCount := 0
    lastModified := now
    creationDate := now
    completionPercentage := .fin 0
    tags := []
    author := ""
    estimatedReadingTime := 0
    version := "1.0" }

/-- The chapter literal built by `handleCreateNewChapter` (`id: Date.now()`,
`name: 'New Chapter'`, empty children, empty content, default metadata). -/
def newChapter (nowId : Nat) (now : String) : Project :=
  .mk nowId "New Chapter" .chapter [] (some "") (defaultMetadata now)

/-- The project literal built by `handleCreateNewProject` /
`handleSaveNewProject` (no content field). -/
def newProject (nowId : Nat) (name : String) (now : String) : Project :=
  .mk nowId name .project [] none (defaultMetadata now)

/-- `addChapterToProject`: append the new chapter to the children of the
root-level node whose id matches; every other root is returned unchanged. -/
def addChapterToProject (projects : List Project) (projectId : Nat)
    (chapter : Project) : List Project :=
  projects.map (fun p =>
    match p with
    | .mk i n t ch co md =>
        if i = projectId then .mk i n t (ch ++ [chapter]) co md
        else .mk i n t ch co md)

/-- `handleCreateNewChapter projectId` builds the default chapter and delegates
to `addChapterToProject`. -/
def handleCreateNewChapter (projects : List Project) (projectId : Nat)
    (nowId : Nat) (now : String) : List Project :=
  addChapterToProject projects projectId (newChapter nowId now)

/-- `handleCreateNewProject` / `handleSaveNewProject`:
`setProjects([...projects, newProject])` — append the default project to the
root list. -/
def handleCreateNewProject (projects : List Project) (name : String)
    (nowId : Nat) (now : String) : List Project :=
  projects ++ [newProject nowId name now]

/-! ### ReorderController (`onDragEnd`) -/

/-- A drag endpoint as delivered by the drag-and-drop collaborator. -/
structure DragLocation : Type where
  droppableId : String
  index : Nat
  deriving DecidableEq

/-- A drag result (`result.destination` is null when the drop was cancelled). -/
structure DropResult : Type where
  source : DragLocation
  destination : Option DragLocation
  deriving DecidableEq

/-- `onDragEnd` from the source:
```
if (!result.destination) return;
const items = Array.from(projects);
const [reorderedItem] = items.splice(result.source.index, 1);
items.splice(result.destination.index, 0, reorderedItem);
setProjects(items);
```
Both splices act on the root list; the droppable ids carried by the result are
ignored.  The splices are modelled by take/drop exactly as `Array.splice`
behaves for in-range indices; an out-of-range source (a programmer error,
excluded by the UI precondition) is modelled as a no-op. -/
def onDragEnd (result : DropResult) (projects : List Project) : List Project :=
  match result.destination with
  | none => projects
  | some dest =>
      match projects[result.source.index]? with
      | none => projects
      | some moved =>
          let items := projects.take result.source.index ++
            projects.drop (result.source.index + 1)
          items.take dest.index ++ moved :: items.drop dest.index

/-! ### Verification observables (not part of the source; used to state the
claims, which speak about "the node with id `i` anywhere in the forest"). -/

mutual

/-- First node with the given id, in preorder. -/
def findNode (projects : List Project) (id : Nat) : Option Project :=
  match projects with
  | [] => none
  | p :: rest =>
      match findNodeIn p id with
      | some q => some q
      | none => findNode rest id

def findNodeIn (p : Project) (id : Nat) : Option Project :=
  match p with
  | .mk i n t ch co md =>
      if i = id then some (.mk i n t ch co md) else findNode ch id

end

mutual

/-- Number of nodes with the given id in the forest. -/
def countId (projects : List Project) (id : Nat) : Nat :=
  match projects with
  | [] => 0
  | p :: rest => countIdIn p id + countId rest id

def countIdIn (p : Project) (id : Nat) : Nat :=
  match p with
  | .mk i _ _ ch _ _ => (if i = id then 1 else 0) + countId ch id

end

/-- The shape `updateProjectContent` gives its target node: content installed,
metadata replaced, everything else kept. -/
def withSavedContent (c : String) (md : ProjectMetadata) (q : Project) : Project :=
  .mk q.id q.name q.type q.children (some c) md

/-- The shape `handleDeleteChapter` gives the matched root: children filtered
by the chapter id, everything else kept. -/
def withChapterRemoved (chapterId : Nat) (p : Project) : Project :=
  .mk p.id p.name p.type (p.children.filter (fun c => c.id ≠ chapterId)) p.content p.metadata

/-- The shape `addChapterToProject` gives the matched root: the chapter
appended to its children, everything else kept. -/
def withChapterAppended (chapter : Project) (p : Project) : Project :=
  .mk p.id p.name p.type (p.children ++ [chapter]) p.content p.metadata

/-! ### JSON values, the codec, and persistence

`JSON.stringify` / `JSON.parse` are external built-ins; a serialized text is
modelled by its parse image.  What the repository itself determines — and what
the proofs are about — is the mapping between the typed `Project` forest and
the JSON value produced by stringifying it (field names, field order,
omission of an absent optional `content`, `NaN`/`Infinity` becoming `null`). -/

/-- A JSON value. -/
inductive Json : Type where
  | null
  | bool (b : Bool)
  | num (q : ℚ)
  | str (s : String)
  | arr (elems : List Json)
  | obj (fields : List (String × Json))

/-- `JSON.stringify` on a JavaScript number: finite numbers keep their value,
`NaN` and the infinities serialize as `null`. -/
def encodeJsNum : JsNum → Json
  | .fin q => .num q
  | _ => .null

/-- The literal status strings of the source. -/
def statusString : Status → String
  | .notStarted => "Not Started"
  | .inProgress => "In Progress"
  | .completed => "Completed"

/-- `JSON.stringify` of a `ProjectMetadata` object (keys in literal order). -/
def encodeMetadata (md : ProjectMetadata) : Json :=
  .obj [("status", .str (statusString md.status)),
        ("wordCountGoal", encodeJsNum md.wordCountGoal),
        ("actualWordCount", .num md.actualWordCount),
        ("lastModified", .str md.lastModified),
        ("creationDate", .str md.creationDate),
        ("completionPercentage", encodeJsNum md.completionPercentage),
        ("tags", .arr (md.tags.map .str)),
        ("author", .str md.author),
        ("estimatedReadingTime", .num md.estimatedReadingTime),
        ("version", .str md.version)]

/-- The literal node-type strings of the source. -/
def typeString : NodeType → String
  | .project => "project"
  | .chapter => "chapter"

mutual

/-- `JSON.stringify` of one `Project` object.  An absent optional `content`
(`undefined`) is omitted from the serialized object. -/
def encodeNode : Project → Json
  | .mk i n t ch co md =>
      .obj ([("id", .num i), ("name", .str n), ("type", .str (typeString t)),
             ("children", .arr (encodeForest ch))] ++
            (match co with
             | some s => [("content", Json.str s)]
             | none => []) ++
            [("metadata", encodeMetadata md)])

def encodeForest : List Project → List Json
  | [] => []
  | p :: ps => encodeNode p :: encodeForest ps

end

/-- `JSON.stringify(projects)`. -/
def encodeProjects (projects : List Project) : Json :=
  .arr (encodeForest projects)

/-- Reading a parsed JSON value back as the typed forest; `some` exactly when
the value is structurally a schema-valid forest.  This is the observable that
states "the imported value is structurally equal to the original forest". -/
def lookupField (fields : List (String × Json)) (key : String) : Option Json :=
  match fields with
  | [] => none
  | (k, v) :: rest => if k = key then some v else lookupField rest key

def decodeStr : Json → Option String
  | .str s => some s
  | _ => none

def decodeNat : Json → Option Nat
  | .num q => if q.den = 1 ∧ 0 ≤ q.num then some q.num.toNat else none
  | _ => none

def decodeJsNum : Json → Option JsNum
  | .num q => some (.fin q)
  | _ => none

def decodeStatus : Json → Option Status
  | .str s =>
      if s = "Not Started" then some .notStarted
      else if s = "In Progress" then some .inProgress
      else if s = "Completed" then some .completed
      else none
  | _ => none

def decodeType : Json → Option NodeType
  | .str s =>
      if s = "project" then some .project
      else if s = "chapter" then some .chapter
      else none
  | _ => none

def decodeStrList : Json → Option (List String)
  | .arr xs =>
      xs.foldr (fun x acc =>
        match decodeStr x, acc with
        | some s, some rest => some (s :: rest)
        | _, _ => none) (some [])
  | _ => none

def decodeMetadata (j : Json) : Option ProjectMetadata :=
  match j with
  | .obj fields =>
      match lookupField fields "status" >>= decodeStatus,
            lookupField fields "wordCountGoal" >>= decodeJsNum,
            lookupField fields "actualWordCount" >>= decodeNat,
            lookupField fields "lastModified" >>= decodeStr,
            lookupField fields "creationDate" >>= decodeStr,
            lookupField fields "completionPercentage" >>= decodeJsNum,
            lookupField fields "tags" >>= decodeStrList,
            lookupField fields "author" >>= decodeStr,
            lookupField fields "estimatedReadingTime" >>= decodeNat,
            lookupField fields "version" >>= decodeStr with
      | some st, some goal, some wc, some lm, some cd, some cp, some tg, some au,
        some rt, some ve =>
          some { status := st, wordCountGoal := goal, actualWordCount := wc,
                 lastModified := lm, creationDate := cd, completionPercentage := cp,
                 tags := tg, author := au, estimatedReadingTime := rt, version := ve }
      | _, _, _, _, _, _, _, _, _, _ => none
  | _ => none

set_option linter.unusedVariables false in
mutual

def decodeNode (j : Json) : Option Project :=
  match j with
  | .obj fields =>
      match hch : lookupField fields "children" with
      | some (.arr chJson) =>
          (match lookupField fields "id" >>= decodeNat,
                 lookupField fields "name" >>= decodeStr,
                 lookupField fields "type" >>= decodeType,
                 lookupField fields "metadata" >>= decodeMetadata with
           | some i, some n, some t, some md =>
               match decodeForest chJson with
               | some ch =>
                   match lookupField fields "content" with
                   | none => some (.mk i n t ch none md)
                   | some cj =>
                       match decodeStr cj with
                       | some s => some (.mk i n t ch (some s) md)
                       | none => none
               | none => none
           | _, _, _, _ => none)
      | _ => none
  | _ => none
termination_by sizeOf j
decreasing_by
  have key : ∀ (fs : List (String × Json)) (v : Json),
      lookupField fs "children" = some v → sizeOf v < sizeOf (Json.obj fs) := by
    intro fs v h
    induction fs with
    | nil => simp [lookupField] at h
    | cons kv rest ih =>
        obtain ⟨k, w⟩ := kv
        by_cases hk : (k = "children")
        · simp [lookupField, hk] at h
          subst h
          simp
          omega
        · simp [lookupField, hk] at h
          have hv := ih h
          simp at hv ⊢
          omega
  have := key _ _ hch
  simp at this ⊢
  omega

def decodeForest (js : List Json) : Option (List Project) :=
  match js with
  | [] => some []
  | j :: rest =>
      match decodeNode j, decodeForest rest with
      | some p, some ps => some (p :: ps)
      | _, _ => none
termination_by sizeOf js

end

/-- `decodeProjects (encodeProjects F) = some F` is the structural-equality
round trip of the claims. -/
def decodeProjects : Json → Option (List Project)
  | .arr js => decodeForest js
  | _ => none

/-- Schema validity of a metadata record: the two JavaScript-number fields are
finite (a `NaN`/`Infinity` would serialize to `null` and not round-trip). -/
def validMetadata (md : ProjectMetadata) : Bool :=
  md.wordCountGoal.isFinite && md.completionPercentage.isFinite

mutual

/-- Schema validity of a node: its metadata and all descendants are valid. -/
def validNode : Project → Bool
  | .mk _ _ _ ch _ md => validMetadata md && validForest ch

def validForest : List Project → Bool
  | [] => true
  | p :: ps => validNode p && validForest ps

end

/-! ### Persistence (`localStorage`) and import/export -/

/-- A stored/imported text, represented by its JSON parse image: the empty
string (falsy in JavaScript, and unparsable), a well-formed text with its
parse result, or a malformed non-empty text (`JSON.parse` throws on it). -/
inductive StoredText : Type where
  | empty
  | wf (j : Json)
  | malformed

/-- The error taxonomy of the spec (the code itself lets the raw exceptions
propagate; an `Except.error` models a thrown exception). -/
inductive ParseError : Type where
  | parse
  deriving DecidableEq

/-- `saveProjectsToLocalStorage`: `localStorage.setItem('projects',
JSON.stringify(projects))` — the slot now holds a well-formed text whose parse
is the stringified forest. -/
def saveProjectsToLocalStorage (projects : List Project) : Option StoredText :=
  some (.wf (encodeProjects projects))

/-- `loadProjectsFromLocalStorage` from the source:
```
const savedProjects = localStorage.getItem('projects');
if (savedProjects) { return JSON.parse(savedProjects); }
return [];
```
There is no try/catch: a malformed stored text makes `JSON.parse` throw, and
the parse result is returned as-is without any schema validation. -/
def loadProjectsFromLocalStorage (slot : Option StoredText) :
    Except ParseError Json :=
  match slot with
  | none => .ok (.arr [])
  | some .empty => .ok (.arr [])
  | some (.wf j) => .ok j
  | some .malformed => .error .parse

/-- `handleExportProjects` serializes the forest with `JSON.stringify` and
offers it for download: the exported text parses back to the stringified
forest. -/
def handleExportProjects (projects : List Project) : StoredText :=
  .wf (encodeProjects projects)

/-- `handleImportProjects` from the source, given the decoded file text and the
current forest state (held as the raw JavaScript value it would be after an
import): `JSON.parse(content)` followed by `setProjects(importedProjects)` with
no validation and no try/catch.  Returns the state afterwards together with the
outcome (`.error` models the uncaught `SyntaxError`; the state is untouched in
that case because the parse precedes the state update). -/
def handleImportProjects (text : StoredText) (state : Json) :
    Json × Except ParseError Unit :=
  match text with
  | .wf j => (j, .ok ())
  | .empty => (state, .error .parse)
  | .malformed => (state, .error .parse)

/-! ### Concrete fixtures used by the closed counterexample and witness
statements -/

/-- A chapter with the default metadata (word-count goal 0). -/
def chapterZeroGoal : Project := .mk 2 "Chapter One" .chapter [] (some "") (defaultMetadata "t0")

/-- A root project containing `chapterZeroGoal`: the chapter sits at depth 1,
so its id 2 occurs in the forest but not at root level. -/
def forestZeroGoal : List Project :=
  [.mk 1 "Novel" .project [chapterZeroGoal] none (defaultMetadata "t0")]

/-- Metadata with a word-count goal of 2000. -/
def mdGoal2000 : ProjectMetadata := { defaultMetadata "t0" with wordCountGoal := .fin 2000 }

/-- A chapter whose metadata carries the 2000-word goal. -/
def chapter2000 : Project := .mk 2 "Chapter One" .chapter [] (some "") mdGoal2000

/-- A forest holding `chapter2000` at depth 1. -/
def forest2000 : List Project :=
  [.mk 1 "Novel" .project [chapter2000] none (defaultMetadata "t0")]

/-- A plain text consisting of exactly 500 whitespace-separated words. -/
def text500 : String := String.mk (List.flatten (List.replicate 500 ['w', ' ']))

/-- Two chapters used as reorderable children. -/
def chapterX : Project := .mk 2 "X" .chapter [] (some "") (defaultMetadata "t0")

def chapterY : Project := .mk 3 "Y" .chapter [] (some "") (defaultMetadata "t0")

/-- Root list fixture for the reorder claims: a project with two children,
followed by a second root. -/
def rootAlpha : Project := .mk 1 "Alpha" .project [chapterX, chapterY] none (defaultMetadata "t0")

def rootBeta : Project := .mk 4 "Beta" .project [] none (defaultMetadata "t0")

def dragForest : List Project := [rootAlpha, rootBeta]

/-- A drag within the level-1 sibling list (the children of `rootAlpha`):
move index 0 to index 1 of droppable `projectList-1`. -/
def dragWithinLevel1 : DropResult :=
  { source := { droppableId := "projectList-1", index := 0 }
    destination := some { droppableId := "projectList-1", index := 1 } }

/-- A three-root list for the reorder witness. -/
def reorderRoots : List Project :=
  [.mk 11 "A" .project [] none (defaultMetadata "t0"),
   .mk 12 "B" .project [] none (defaultMetadata "t0"),
   .mk 13 "D" .project [] none (defaultMetadata "t0")]

/-! ## Lemmas -/

/-! ### Word counting -/

theorem splitWs_one (c : Char) : splitWs [c] = if isWs c then [[], []] else [[c]] := rfl

theorem splitWs_cons_cons (c r : Char) (rs : List Char) :
    splitWs (c :: r :: rs) =
      if isWs c then
        (if isWs r then splitWs (r :: rs) else [] :: splitWs (r :: rs))
      else
        match splitWs (r :: rs) with
        | t :: ts => (c :: t) :: ts
        | [] => [[c]] := rfl

theorem wsRuns_one (c : Char) : wsRuns [c] = if isWs c then 1 else 0 := rfl

theorem wsRuns_cons_cons (c r : Char) (rs : List Char) :
    wsRuns (c :: r :: rs) =
      if isWs c then (if isWs r then wsRuns (r :: rs) else 1 + wsRuns (r :: rs))
      else wsRuns (r :: rs) := rfl

theorem countRuns_one (c : Char) : countRuns [c] = if isWs c then 0 else 1 := rfl

theorem countRuns_cons_cons (c r : Char) (rs : List Char) :
    countRuns (c :: r :: rs) =
      if isWs c then countRuns (r :: rs)
      else (if isWs r then 1 + countRuns (r :: rs) else countRuns (r :: rs)) := rfl

theorem splitWs_ne_nil : ∀ l : List Char, splitWs l ≠ []
  | [] => by simp [splitWs]
  | [c] => by rw [splitWs_one]; split <;> simp
  | c :: r :: rs => by
      have ih := splitWs_ne_nil (r :: rs)
      rw [splitWs_cons_cons]
      split
      · split <;> simp [ih]
      · cases hs : splitWs (r :: rs) with
        | nil => exact absurd hs ih
        | cons t ts => simp

/-- The number of split tokens is one more than the number of whitespace runs. -/
theorem length_splitWs : ∀ l : List Char, (splitWs l).length = 1 + wsRuns l
  | [] => by simp [splitWs, wsRuns]
  | [c] => by rw [splitWs_one, wsRuns_one]; split <;> simp
  | c :: r :: rs => by
      have ih := length_splitWs (r :: rs)
      have hne := splitWs_ne_nil (r :: rs)
      rw [splitWs_cons_cons, wsRuns_cons_cons]
      by_cases hc : isWs c <;> by_cases hr : isWs r <;> simp [hc, hr]
      · omega
      · simp [ih]; omega
      all_goals
        cases hs : splitWs (r :: rs) with
        | nil => exact absurd hs hne
        | cons t ts => rw [hs] at ih; simp at ih ⊢; omega

theorem head?_dropWhile_ws (l : List Char) (c : Char)
    (h : (l.dropWhile isWs).head? = some c) : isWs c = false := by
  induction l with
  | nil => simp [List.dropWhile] at h
  | cons a rest ih =>
      by_cases ha : isWs a
      · rw [List.dropWhile_cons_of_pos ha] at h
        exact ih h
      · rw [List.dropWhile_cons_of_neg ha] at h
        simp at h
        subst h
        simpa using ha

theorem getLast?_trimRight (l : List Char) (c : Char)
    (h : (trimRight l).getLast? = some c) : isWs c = false := by
  unfold trimRight at h
  rw [List.getLast?_reverse] at h
  exact head?_dropWhile_ws l.reverse c h

theorem head?_trimRight (l : List Char) (h : trimRight l ≠ []) :
    (trimRight l).head? = l.head? := by
  have hs : l.reverse.dropWhile isWs <:+ l.reverse := List.dropWhile_suffix isWs
  have hp : (l.reverse.dropWhile isWs).reverse <+: l.reverse.reverse :=
    List.reverse_prefix.mpr hs
  rw [List.reverse_reverse] at hp
  obtain ⟨t, ht⟩ := hp
  cases hr : trimRight l with
  | nil => exact absurd hr h
  | cons a as =>
      unfold trimRight at hr
      rw [hr] at ht
      rw [← ht]
      simp

/-- A trimmed string starts with a non-whitespace character. -/
theorem head?_jsTrim (l : List Char) (c : Char)
    (h : (jsTrim l).head? = some c) : isWs c = false := by
  unfold jsTrim at h
  have hne : trimRight (trimLeft l) ≠ [] := by
    intro h0
    rw [h0] at h
    simp at h
  rw [head?_trimRight _ hne] at h
  exact head?_dropWhile_ws l c h

/-- A trimmed string ends with a non-whitespace character. -/
theorem getLast?_jsTrim (l : List Char) (c : Char)
    (h : (jsTrim l).getLast? = some c) : isWs c = false :=
  getLast?_trimRight (trimLeft l) c h

/-- On a string that does not end in whitespace, the number of words exceeds
the number of whitespace runs by one exactly when the string starts with a
non-whitespace character. -/
theorem countRuns_wsRuns : ∀ (c : Char) (rest : List Char),
    (∀ x, (c :: rest).getLast? = some x → isWs x = false) →
    countRuns (c :: rest) = wsRuns (c :: rest) + (if isWs c then 0 else 1)
  | c, [], h => by
      have hc := h c (by simp)
      rw [countRuns_one, wsRuns_one]
      simp [hc]
  | c, r :: rest, h => by
      have hr : ∀ x, (r :: rest).getLast? = some x → isWs x = false := by
        intro x hx
        exact h x (by simpa using hx)
      have ih := countRuns_wsRuns r rest hr
      rw [countRuns_cons_cons, wsRuns_cons_cons]
      by_cases hc : isWs c <;> by_cases hrw : isWs r <;> simp [hc, hrw] at ih ⊢ <;> omega

/-- `countWords` counts the whitespace-separated words of the stripped and
trimmed text, except that an empty text still counts as one (empty) token. -/
theorem countWords_eq_countRuns (s : String) :
    countWords s = (if jsTrim (stripTags s.data) = [] then 1
                    else countRuns (jsTrim (stripTags s.data))) := by
  have hlen := length_splitWs (jsTrim (stripTags s.data))
  unfold countWords
  cases ht : jsTrim (stripTags s.data) with
  | nil => rw [ht] at hlen; simpa [wsRuns] using hlen
  | cons c rest =>
      rw [ht] at hlen
      have hhead : isWs c = false := by
        have := head?_jsTrim (stripTags s.data) c
        rw [ht] at this
        exact this (by simp)
      have htail : ∀ x, (c :: rest).getLast? = some x → isWs x = false := by
        intro x hx
        have := getLast?_jsTrim (stripTags s.data) x
        rw [ht] at this
        exact this hx
      have hcw := countRuns_wsRuns c rest htail
      simp [hhead] at hcw
      simp [hlen, hcw]
      omega

/-- The split always produces at least one token, so `countWords` never
returns 0. -/
theorem countWords_pos (s : String) : 1 ≤ countWords s := by
  have := length_splitWs (jsTrim (stripTags s.data))
  unfold countWords
  omega

/-! ### Metadata arithmetic -/

/-- The `Math.ceil(newWordCount / 250)` of the source equals the exact
rational ceiling. -/
theorem natCeilDiv_eq_ceil (w : Nat) :
    (((w + 249) / 250 : Nat) : ℤ) = ⌈(w : ℚ) / 250⌉ := by
  have hb : (0 : ℚ) < 250 := by norm_num
  have h1 : 250 * ((w + 249) / 250) < w + 250 := by omega
  have h2 : w ≤ 250 * ((w + 249) / 250) := by omega
  qify at h1 h2
  symm
  rw [Int.ceil_eq_iff]
  refine ⟨?_, ?_⟩
  · rw [lt_div_iff₀ hb]
    push_cast
    linarith
  · rw [div_le_iff₀ hb]
    push_cast
    linarith

/-- For a positive finite goal, the `Math.min(..., 100)` of the source equals
the clamp of the specification (the lower clamp at 0 is vacuous because the
quotient is non-negative). -/
theorem jsCompletion_clamp (w : Nat) (g : ℚ) (hg : 0 < g) :
    JsNum.jsMin (JsNum.jsMul (JsNum.jsDiv (.fin w) (.fin g)) (.fin 100)) (.fin 100) =
      .fin (max 0 (min ((w : ℚ) / g * 100) 100)) := by
  have hgq : g ≠ 0 := ne_of_gt hg
  have hnn : (0 : ℚ) ≤ (w : ℚ) / g * 100 := by positivity
  simp only [JsNum.jsDiv, if_neg hgq, JsNum.jsMul, JsNum.jsMin]
  congr 1
  rw [← min_def, max_eq_right]
  exact le_min hnn (by norm_num)

/-- With a zero goal and a positive word count, the IEEE quotient is `+∞` and
`Math.min` collapses it to the finite value 100. -/
theorem jsCompletion_zeroGoal (w : Nat) (hw : 1 ≤ w) :
    JsNum.jsMin (JsNum.jsMul (JsNum.jsDiv (.fin w) (.fin 0)) (.fin 100)) (.fin 100) =
      .fin 100 := by
  have hw0 : ((w : ℚ)) ≠ 0 := by
    have : (0 : ℚ) < w := by exact_mod_cast hw
    exact ne_of_gt this
  have hwpos : (0 : ℚ) < w := by exact_mod_cast hw
  simp [JsNum.jsDiv, hw0, hwpos, JsNum.jsMul, JsNum.jsMin]

/-! ### Locating the node updated by `updateProjectContent` -/

mutual

theorem findNode_updateProjectContent : ∀ (F : List Project) (id : Nat) (c : String)
    (md : ProjectMetadata),
    findNode (updateProjectContent F id c md) id =
      (findNode F id).map (withSavedContent c md)
  | [], id, c, md => by simp [updateProjectContent, findNode]
  | p :: rest, id, c, md => by
      have hp := findNodeIn_updateProjectContentNode p id c md
      have hr := findNode_updateProjectContent rest id c md
      simp only [updateProjectContent, findNode, hp, hr]
      cases findNodeIn p id <;> simp

theorem findNodeIn_updateProjectContentNode : ∀ (p : Project) (id : Nat) (c : String)
    (md : ProjectMetadata),
    findNodeIn (updateProjectContentNode p id c md) id =
      (findNodeIn p id).map (withSavedContent c md)
  | .mk i n t ch co pmd, id, c, md => by
      by_cases hid : i = id
      · simp [updateProjectContentNode, findNodeIn, hid, withSavedContent,
          Project.id, Project.name, Project.type, Project.children]
      · have hch := findNode_updateProjectContent ch id c md
        by_cases hlen : 0 < ch.length
        · simp [updateProjectContentNode, findNodeIn, hid, hlen, hch]
        · have hnil : ch = [] := by
            cases ch with
            | nil => rfl
            | cons a b => simp at hlen
          subst hnil
          simp [updateProjectContentNode, findNodeIn, hid, findNode]

end

/-! ### Codec round trip -/

theorem decodeNat_natCast (k : Nat) : decodeNat (.num (k : ℚ)) = some k := by
  simp [decodeNat]

theorem decodeStrList_map (ts : List String) :
    decodeStrList (.arr (ts.map .str)) = some ts := by
  induction ts with
  | nil => simp [decodeStrList]
  | cons t rest ih =>
      simp [decodeStrList] at ih ⊢
      rw [ih]
      simp [decodeStr]

theorem decodeStatus_encode (s : Status) :
    decodeStatus (.str (statusString s)) = some s := by
  cases s <;> simp [statusString, decodeStatus]

theorem decodeType_encode (t : NodeType) :
    decodeType (.str (typeString t)) = some t := by
  cases t <;> simp [typeString, decodeType]

theorem decodeJsNum_encode (x : JsNum) (h : x.isFinite = true) :
    decodeJsNum (encodeJsNum x) = some x := by
  cases x <;> simp_all [JsNum.isFinite, encodeJsNum, decodeJsNum]

theorem decodeMetadata_encode (md : ProjectMetadata) (h : validMetadata md = true) :
    decodeMetadata (encodeMetadata md) = some md := by
  obtain ⟨hg, hc⟩ := by simpa [validMetadata, Bool.and_eq_true] using h
  simp [encodeMetadata, decodeMetadata, lookupField, decodeNat_natCast,
    decodeStrList_map, decodeStatus_encode, decodeType_encode,
    decodeJsNum_encode _ hg, decodeJsNum_encode _ hc, decodeStr]

mutual

theorem decodeNode_encodeNode : ∀ (p : Project), validNode p = true →
    decodeNode (encodeNode p) = some p
  | .mk i n t ch co md, h => by
      have hmd : validMetadata md = true := by
        simp [validNode, Bool.and_eq_true] at h; exact h.1
      have hchv : validForest ch = true := by
        simp [validNode, Bool.and_eq_true] at h; exact h.2
      have hf := decodeForest_encodeForest ch hchv
      cases co <;>
        simp [encodeNode, decodeNode, lookupField, decodeNat_natCast, decodeStr,
          decodeType_encode, decodeMetadata_encode _ hmd, hf]

theorem decodeForest_encodeForest : ∀ (ps : List Project), validForest ps = true →
    decodeForest (encodeForest ps) = some ps
  | [], _ => by simp [encodeForest, decodeForest]
  | p :: rest, h => by
      have hp : validNode p = true := by
        simp [validForest, Bool.and_eq_true] at h; exact h.1
      have hr : validForest rest = true := by
        simp [validForest, Bool.and_eq_true] at h; exact h.2
      simp [encodeForest, decodeForest, decodeNode_encodeNode p hp,
        decodeForest_encodeForest rest hr]

end

/-! ## Claims -/

/-- Claim C1, counterexample.  The claim states that saving a document whose
metadata has `wordCountGoal = 0` yields `completionPercentage = 0`.  On the
code, saving the zero-goal chapter of `forestZeroGoal` with a two-word text
stores `completionPercentage = 100` (the IEEE quotient is `+Infinity` and
`Math.min(Infinity, 100)` is `100`), not `0`. -/
theorem completionPercentage_zero_goal_counterexample :
    ((findNode (handleSaveContent forestZeroGoal chapterZeroGoal "raw" "hello world" "t1") 2).map
        (fun p => p.metadata.completionPercentage) = some (.fin 100)) ∧
      JsNum.fin 100 ≠ JsNum.fin 0 := by
  constructor
  · rfl
  · decide

/-- Claim C1, amended.  For every save through `updateContent`
(`handleSaveContent`), if the metadata's `wordCountGoal` is `0` then the
derived `completionPercentage` is `100` — not `0` as claimed — because the
word count is always at least 1, so the zero-divisor quotient is `+Infinity`
and `Math.min` caps it at `100`; in particular the stored value is finite
(never NaN or Infinity). -/
theorem completionPercentage_zero_goal (md : ProjectMetadata) (plainText now : String)
    (h : md.wordCountGoal = .fin 0) :
    (updatedMetadata md (countWords plainText) now).completionPercentage = .fin 100 ∧
      ((updatedMetadata md (countWords plainText) now).completionPercentage).isFinite = true := by
  have hw := countWords_pos plainText
  have hfin : (updatedMetadata md (countWords plainText) now).completionPercentage =
      .fin 100 := by
    simp only [updatedMetadata, h]
    exact jsCompletion_zeroGoal _ hw
  exact ⟨hfin, by rw [hfin]; rfl⟩

/-- Claim C1, witness for the amended theorem at a concrete input. -/
theorem completionPercentage_zero_goal_witness :
    (defaultMetadata "t0").wordCountGoal = .fin 0 ∧
      ((updatedMetadata (defaultMetadata "t0") (countWords "hello world") "t1").completionPercentage
          = .fin 100 ∧
        ((updatedMetadata (defaultMetadata "t0") (countWords "hello world")
            "t1").completionPercentage).isFinite = true) :=
  ⟨rfl, completionPercentage_zero_goal (defaultMetadata "t0") "hello world" "t1" rfl⟩

/-- Claim C4, counterexample.  The claim states that `load()` never raises and
returns an empty forest when the stored value is corrupt.  On the code, a
malformed stored text makes `JSON.parse` throw (there is no try/catch in
`loadProjectsFromLocalStorage`), modelled as an error result. -/
theorem load_corrupt_raises_counterexample :
    loadProjectsFromLocalStorage (some .malformed) = .error .parse := rfl

/-- Claim C4, amended.  `load()` returns an empty forest when the slot is
absent (or holds the falsy empty string), returns the parsed stored value
verbatim when the stored text is well-formed — in particular the snapshot
written by `save` — and raises a parse error on a corrupt (unparsable)
non-empty stored text instead of swallowing the corruption. -/
theorem load_resilience_behaviour :
    loadProjectsFromLocalStorage none = .ok (.arr []) ∧
      loadProjectsFromLocalStorage (some .empty) = .ok (.arr []) ∧
      (∀ F : List Project,
        loadProjectsFromLocalStorage (saveProjectsToLocalStorage F) = .ok (encodeProjects F)) ∧
      loadProjectsFromLocalStorage (some .malformed) = .error .parse :=
  ⟨rfl, rfl, fun _ => rfl, rfl⟩

/-- Claim C5, counterexample.  The claim states that importing malformed or
schema-invalid text fails with `ParseError` and leaves the forest unchanged.
On the code, the well-formed but schema-invalid text `1` is imported without
any error and replaces the forest with the non-forest value `1`. -/
theorem import_no_validation_counterexample :
    (handleImportProjects (.wf (.num 1)) (encodeProjects forest2000)).2 = .ok () ∧
      (handleImportProjects (.wf (.num 1)) (encodeProjects forest2000)).1 ≠
        encodeProjects forest2000 ∧
      decodeProjects (handleImportProjects (.wf (.num 1)) (encodeProjects forest2000)).1 =
        none := by
  refine ⟨rfl, ?_, rfl⟩
  intro h
  simp [handleImportProjects, encodeProjects] at h

/-- Claim C5, amended.  Importing text that fails to parse (malformed, or the
empty string) throws and leaves the in-memory forest untouched — atomicity
holds for unparsable input because the parse precedes the state update — but
no schema validation is performed: any well-formed JSON text, forest-shaped or
not, is installed verbatim as the new state with no error. -/
theorem import_atomicity_behaviour :
    (∀ st : Json, handleImportProjects .malformed st = (st, .error .parse)) ∧
      (∀ st : Json, handleImportProjects .empty st = (st, .error .parse)) ∧
      (∀ (j : Json) (st : Json), handleImportProjects (.wf j) st = (j, .ok ())) :=
  ⟨fun _ => rfl, fun _ => rfl, fun _ _ => rfl⟩

/-- Claim C7, confirmed.  `countWords` strips the `<...>` substrings, trims,
splits on whitespace runs and returns the number of tokens: on a text whose
stripped-and-trimmed form is nonempty this is the number of maximal
non-whitespace runs (the whitespace-separated words), and on the empty string
(more generally, whenever stripping and trimming leaves nothing) it returns 1,
the single empty token, rather than 0. -/
theorem countWords_specification :
    (∀ s : String,
      countWords s = if jsTrim (stripTags s.data) = [] then 1
                     else countRuns (jsTrim (stripTags s.data))) ∧
      countWords "" = 1 :=
  ⟨countWords_eq_countRuns, rfl⟩

/-- Claim C10, confirmed.  `countWords` never returns 0 — every input,
including whitespace-only and tag-only strings, yields at least one token —
and consequently the metadata stored by a content save always has
`actualWordCount ≥ 1` and `estimatedReadingTime ≥ 1`. -/
theorem countWords_positive :
    (∀ s : String, 1 ≤ countWords s) ∧
      (∀ (md : ProjectMetadata) (plainText now : String),
        1 ≤ (updatedMetadata md (countWords plainText) now).actualWordCount ∧
          1 ≤ (updatedMetadata md (countWords plainText) now).estimatedReadingTime) := by
  refine ⟨countWords_pos, fun md plainText now => ?_⟩
  have h := countWords_pos plainText
  simp only [updatedMetadata]
  constructor
  · exact h
  · omega


/-! helpers shared by the delete and create claims -/

theorem filter_ne_eq_self (l : List Project) (id : Nat) (h : ∀ p ∈ l, p.id ≠ id) :
    l.filter (fun p => p.id ≠ id) = l :=
  List.filter_eq_self.mpr (fun a ha => by simpa using h a ha)

theorem map_id_of_ne (l : List Project) (pid : Nat)
    (f : Project → Project)
    (hf : ∀ p, p.id ≠ pid → f p = p)
    (h : ∀ p ∈ l, p.id ≠ pid) : l.map f = l := by
  induction l with
  | nil => rfl
  | cons a rest ih =>
      have ha := hf a (h a (by simp))
      have hr := ih (fun p hp => h p (by simp [hp]))
      simp [ha, hr]

/-- Claim C2, counterexample.  The claim states that `delete` locates the node
anywhere in the forest and removes it.  In `forestZeroGoal` the id 2 occurs
exactly once — as a depth-1 chapter — yet `handleDeleteProject` (the delete
operation keyed on a bare id) filters only the root list and returns the
forest unchanged, with the node still present. -/
theorem delete_nested_id_counterexample :
    countId forestZeroGoal 2 = 1 ∧
      findNode forestZeroGoal 2 = some chapterZeroGoal ∧
      handleDeleteProject forestZeroGoal 2 = forestZeroGoal :=
  ⟨rfl, rfl, rfl⟩

/-- Claim C2, amended.  Deletion is scoped to the root level: for an id held
by a root node (and by no other root), `handleDeleteProject` removes exactly
that root with its entire subtree, keeping every other root and the sibling
order; for an id matching no root it is a no-op and never throws (even when
the id exists deeper in the forest).  `handleDeleteChapter` removes matching
chapters only from the direct children of the root named by `projectId`, and
is likewise a no-op when no root has that id. -/
theorem delete_root_scope :
    (∀ (l1 l2 : List Project) (r : Project) (id : Nat),
       r.id = id → (∀ p ∈ l1, p.id ≠ id) → (∀ p ∈ l2, p.id ≠ id) →
       handleDeleteProject (l1 ++ r :: l2) id = l1 ++ l2) ∧
    (∀ (F : List Project) (id : Nat), (∀ p ∈ F, p.id ≠ id) →
       handleDeleteProject F id = F) ∧
    (∀ (l1 l2 : List Project) (r : Project) (pid cid : Nat),
       r.id = pid → (∀ p ∈ l1, p.id ≠ pid) → (∀ p ∈ l2, p.id ≠ pid) →
       handleDeleteChapter (l1 ++ r :: l2) pid cid = l1 ++ withChapterRemoved cid r :: l2) ∧
    (∀ (F : List Project) (pid cid : Nat), (∀ p ∈ F, p.id ≠ pid) →
       handleDeleteChapter F pid cid = F) := by
  refine ⟨?_, ?_, ?_, ?_⟩
  · intro l1 l2 r id hr h1 h2
    unfold handleDeleteProject
    rw [List.filter_append, List.filter_cons]
    have hne : ¬ (r.id ≠ id) := by simp [hr]
    simp only [hne, decide_False]
    rw [filter_ne_eq_self l1 id h1, filter_ne_eq_self l2 id h2]
    simp
  · intro F id h
    exact filter_ne_eq_self F id h
  · intro l1 l2 r pid cid hr h1 h2
    unfold handleDeleteChapter
    rw [List.map_append, List.map_cons]
    have hf : ∀ p : Project, p.id ≠ pid →
        (match p with
         | .mk i n t ch co md =>
             if i = pid then Project.mk i n t (ch.filter (fun c => c.id ≠ cid)) co md
             else .mk i n t ch co md) = p := by
      intro p hp
      cases p with
      | mk i n t ch co md =>
          simp [Project.id] at hp
          simp [hp]
    rw [map_id_of_ne l1 pid _ hf h1, map_id_of_ne l2 pid _ hf h2]
    cases r with
    | mk i n t ch co md =>
        simp [Project.id] at hr
        simp [hr, withChapterRemoved, Project.id, Project.name, Project.type,
          Project.children, Project.content, Project.metadata]
  · intro F pid cid h
    unfold handleDeleteChapter
    apply map_id_of_ne F pid _ _ h
    intro p hp
    cases p with
    | mk i n t ch co md =>
        simp [Project.id] at hp
        simp [hp]

/-- Claim C2, witness for the amended theorem at concrete inputs. -/
theorem delete_root_scope_witness :
    ((rootBeta.id = 4 ∧ (∀ p ∈ [rootAlpha], p.id ≠ 4) ∧
        (∀ p ∈ ([] : List Project), p.id ≠ 4)) ∧
       handleDeleteProject ([rootAlpha] ++ rootBeta :: []) 4 = [rootAlpha] ++ []) ∧
      ((∀ p ∈ [rootAlpha], p.id ≠ 9) ∧ handleDeleteProject [rootAlpha] 9 = [rootAlpha]) :=
  ⟨⟨⟨by decide, by decide, by decide⟩,
     delete_root_scope.1 [rootAlpha] [] rootBeta 4 (by decide) (by decide) (by decide)⟩,
   ⟨by decide, delete_root_scope.2.1 [rootAlpha] 9 (by decide)⟩⟩

/-- Claim C6, counterexample.  The claim states that `create` appends to the
children of the node with id `parentId` wherever it is in the forest, and
fails with `NotFoundError` when that id is absent.  In `forestZeroGoal` the id
2 exists (a depth-1 chapter with no children), yet `addChapterToProject`
returns the forest unchanged — nothing is appended and no error is raised. -/
theorem create_nested_parent_counterexample :
    countId forestZeroGoal 2 = 1 ∧
      (findNode forestZeroGoal 2).map Project.children = some [] ∧
      addChapterToProject forestZeroGoal 2 (newChapter 99 "t9") = forestZeroGoal :=
  ⟨rfl, rfl, rfl⟩

/-- Claim C6, amended.  Creation is scoped to the root level: for a parent id
held by a root node (and by no other root), `addChapterToProject` appends the
new chapter to that root''s children, keeping everything else and the sibling
order; when no root has that id — even if a nested node does — the forest is
returned unchanged and no error of any kind is raised.  Creating with a null
parent (`handleCreateNewProject`) appends the fresh default node to the root
list. -/
theorem create_root_scope :
    (∀ (l1 l2 : List Project) (r : Project) (pid : Nat) (chapter : Project),
       r.id = pid → (∀ p ∈ l1, p.id ≠ pid) → (∀ p ∈ l2, p.id ≠ pid) →
       addChapterToProject (l1 ++ r :: l2) pid chapter =
         l1 ++ withChapterAppended chapter r :: l2) ∧
    (∀ (F : List Project) (pid : Nat) (chapter : Project), (∀ p ∈ F, p.id ≠ pid) →
       addChapterToProject F pid chapter = F) ∧
    (∀ (F : List Project) (name : String) (nowId : Nat) (now : String),
       handleCreateNewProject F name nowId now = F ++ [newProject nowId name now]) := by
  have hf : ∀ (pid : Nat) (chapter : Project) (p : Project), p.id ≠ pid →
      (match p with
       | .mk i n t ch co md =>
           if i = pid then Project.mk i n t (ch ++ [chapter]) co md
           else .mk i n t ch co md) = p := by
    intro pid chapter p hp
    cases p with
    | mk i n t ch co md =>
        simp [Project.id] at hp
        simp [hp]
  refine ⟨?_, ?_, ?_⟩
  · intro l1 l2 r pid chapter hr h1 h2
    unfold addChapterToProject
    rw [List.map_append, List.map_cons]
    rw [map_id_of_ne l1 pid _ (hf pid chapter) h1,
      map_id_of_ne l2 pid _ (hf pid chapter) h2]
    cases r with
    | mk i n t ch co md =>
        simp [Project.id] at hr
        simp [hr, withChapterAppended, Project.id, Project.name, Project.type,
          Project.children, Project.content, Project.metadata]
  · intro F pid chapter h
    exact map_id_of_ne F pid _ (hf pid chapter) h
  · intro F name nowId now
    rfl

/-- Claim C6, witness for the amended theorem at concrete inputs. -/
theorem create_root_scope_witness :
    ((rootBeta.id = 4 ∧ (∀ p ∈ [rootAlpha], p.id ≠ 4) ∧
        (∀ p ∈ ([] : List Project), p.id ≠ 4)) ∧
       addChapterToProject ([rootAlpha] ++ rootBeta :: []) 4 (newChapter 99 "t9") =
         [rootAlpha] ++ withChapterAppended (newChapter 99 "t9") rootBeta :: []) ∧
      ((∀ p ∈ [rootAlpha], p.id ≠ 9) ∧
        addChapterToProject [rootAlpha] 9 (newChapter 99 "t9") = [rootAlpha]) :=
  ⟨⟨⟨by decide, by decide, by decide⟩,
     create_root_scope.1 [rootAlpha] [] rootBeta 4 (newChapter 99 "t9")
       (by decide) (by decide) (by decide)⟩,
   ⟨by decide, create_root_scope.2.1 [rootAlpha] 9 (newChapter 99 "t9") (by decide)⟩⟩

theorem insertIdx_eq_take_cons_drop {a : Type} (n : Nat) (x : a) (l : List a)
    (h : n ≤ l.length) :
    l.insertIdx n x = l.take n ++ x :: l.drop n := by
  induction l generalizing n with
  | nil =>
      have hz : n = 0 := by simpa using h
      subst hz
      simp
  | cons b bs ih =>
      cases n with
      | zero => simp
      | succ m =>
          simp at h
          simp [List.insertIdx_succ_cons, ih m h]

/-- Claim C8, counterexample.  The claim states that the reorder operation
permutes the sibling list identified by the drag''s `levelKey` and changes no
other sibling list.  Dragging index 0 to index 1 inside the level-1 children
list of `rootAlpha` instead permutes the root list — the roots swap from ids
`[1, 4]` to `[4, 1]` while the targeted children list stays `[2, 3]` — because
`onDragEnd` ignores the droppable id and always splices the root list. -/
theorem reorder_level_ignored_counterexample :
    dragForest.map Project.id = [1, 4] ∧
      (onDragEnd dragWithinLevel1 dragForest).map Project.id = [4, 1] ∧
      (onDragEnd dragWithinLevel1 dragForest).map (fun p => p.children.map Project.id) =
        [[], [2, 3]] :=
  ⟨rfl, rfl, rfl⟩

/-- Claim C8, amended.  `onDragEnd` always permutes the root list, whatever
level the drag''s droppable ids name: for in-range indices `src ≠ dest` (or
`src = dest`) the moved root ends at position `dest` and deleting it from the
result recovers the original list minus the moved element, so all other roots
retain their relative order; the sibling list the `levelKey` actually
identifies is not touched unless it is the root list itself. -/
theorem reorder_root_list (roots : List Project) (src dest : Nat) (sId dId : String)
    (h1 : src < roots.length) (h2 : dest < roots.length) :
    (onDragEnd ⟨⟨sId, src⟩, some ⟨dId, dest⟩⟩ roots)[dest]? = roots[src]? ∧
      (onDragEnd ⟨⟨sId, src⟩, some ⟨dId, dest⟩⟩ roots).eraseIdx dest =
        roots.eraseIdx src := by
  have hsome : roots[src]? = some (roots[src]) := List.getElem?_eq_getElem h1
  have hitems : roots.take src ++ roots.drop (src + 1) = roots.eraseIdx src :=
    (List.eraseIdx_eq_take_drop_succ roots src).symm
  have hlen : dest ≤ (roots.eraseIdx src).length := by
    rw [List.length_eraseIdx_of_lt h1]
    omega
  have hre : onDragEnd ⟨⟨sId, src⟩, some ⟨dId, dest⟩⟩ roots =
      (roots.eraseIdx src).insertIdx dest (roots[src]) := by
    unfold onDragEnd
    simp only [hsome, hitems]
    exact (insertIdx_eq_take_cons_drop dest (roots[src]) (roots.eraseIdx src) hlen).symm
  rw [hre]
  constructor
  · have hlen2 : dest < ((roots.eraseIdx src).insertIdx dest (roots[src])).length := by
      rw [List.length_insertIdx dest _ hlen]
      omega
    rw [List.getElem?_eq_getElem hlen2, hsome]
    congr 1
    exact List.getElem_insertIdx_self _ _ _ hlen
  · exact List.eraseIdx_insertIdx dest (roots.eraseIdx src)

/-- Claim C8, witness for the amended theorem at a concrete input. -/
theorem reorder_root_list_witness :
    (0 < reorderRoots.length ∧ 2 < reorderRoots.length) ∧
      ((onDragEnd ⟨⟨"pl0", 0⟩, some ⟨"pl0", 2⟩⟩ reorderRoots)[2]? = reorderRoots[0]? ∧
        (onDragEnd ⟨⟨"pl0", 0⟩, some ⟨"pl0", 2⟩⟩ reorderRoots).eraseIdx 2 =
          reorderRoots.eraseIdx 0) :=
  ⟨⟨by decide, by decide⟩,
   reorder_root_list reorderRoots 0 2 "pl0" "pl0" (by decide) (by decide)⟩

/-- Claim C3, confirmed.  For every forest and selected document (chapter)
node found in it, `handleSaveContent` installs the new content on that node —
wherever it sits — and replaces its metadata with exactly: the new word count,
the reading time `ceil(words / 250)`, the completion percentage
`clamp(words / goal * 100, 0, 100)` for any positive finite goal, and
`lastModified = now`; every other metadata field (status, goal, creation date,
tags, author, version) is copied unchanged.  In particular (see the witness)
a 2000-word goal with a 500-word text yields word count 500, reading time 2
and completion percentage 25. -/
theorem updateContent_derivation (F : List Project) (sel : Project)
    (content plainText now : String)
    (hty : sel.type = .chapter) (hfind : findNode F sel.id = some sel) :
    findNode (handleSaveContent F sel content plainText now) sel.id =
        some (withSavedContent content
          (updatedMetadata sel.metadata (countWords plainText) now) sel) ∧
      (updatedMetadata sel.metadata (countWords plainText) now).actualWordCount =
        countWords plainText ∧
      ((updatedMetadata sel.metadata (countWords plainText) now).estimatedReadingTime : ℤ) =
        ⌈(countWords plainText : ℚ) / 250⌉ ∧
      (updatedMetadata sel.metadata (countWords plainText) now).lastModified = now ∧
      (∀ g : ℚ, sel.metadata.wordCountGoal = .fin g → 0 < g →
        (updatedMetadata sel.metadata (countWords plainText) now).completionPercentage =
          .fin (max 0 (min ((countWords plainText : ℚ) / g * 100) 100))) ∧
      (updatedMetadata sel.metadata (countWords plainText) now).status = sel.metadata.status ∧
      (updatedMetadata sel.metadata (countWords plainText) now).wordCountGoal =
        sel.metadata.wordCountGoal ∧
      (updatedMetadata sel.metadata (countWords plainText) now).creationDate =
        sel.metadata.creationDate ∧
      (updatedMetadata sel.metadata (countWords plainText) now).tags = sel.metadata.tags ∧
      (updatedMetadata sel.metadata (countWords plainText) now).author = sel.metadata.author ∧
      (updatedMetadata sel.metadata (countWords plainText) now).version =
        sel.metadata.version := by
  refine ⟨?_, rfl, natCeilDiv_eq_ceil _, rfl, ?_, rfl, rfl, rfl, rfl, rfl, rfl⟩
  · unfold handleSaveContent
    rw [if_pos hty, findNode_updateProjectContent, hfind]
    rfl
  · intro g hg hgpos
    simp only [updatedMetadata, hg]
    exact jsCompletion_clamp _ g hgpos

set_option maxRecDepth 10000 in
/-- Claim C3, witness: the concrete 2000-goal chapter saved with a 500-word
text yields word count 500, reading time 2 and completion percentage 25. -/
theorem updateContent_derivation_witness :
    (chapter2000.type = .chapter ∧ findNode forest2000 chapter2000.id = some chapter2000) ∧
      countWords text500 = 500 ∧
      findNode (handleSaveContent forest2000 chapter2000 "raw" text500 "t1") chapter2000.id =
        some (withSavedContent "raw"
          (updatedMetadata chapter2000.metadata (countWords text500) "t1") chapter2000) ∧
      (updatedMetadata chapter2000.metadata (countWords text500) "t1").actualWordCount = 500 ∧
      (updatedMetadata chapter2000.metadata (countWords text500) "t1").estimatedReadingTime = 2 ∧
      (updatedMetadata chapter2000.metadata (countWords text500) "t1").completionPercentage =
        .fin 25 := by
  have h500 : countWords text500 = 500 := by decide
  refine ⟨⟨rfl, rfl⟩, h500,
    (updateContent_derivation forest2000 chapter2000 "raw" text500 "t1" rfl rfl).1,
    ?_, ?_, ?_⟩
  · rw [h500]
    rfl
  · rw [h500]
    rfl
  · rw [h500]
    norm_num [updatedMetadata, chapter2000, mdGoal2000, defaultMetadata,
      Project.metadata, JsNum.jsDiv, JsNum.jsMul, JsNum.jsMin]

/-- Claim C9, confirmed.  For every schema-valid forest, exporting and then
importing is the identity up to the serialized representation: the import
succeeds and the installed state decodes back to exactly the original forest
— same ids, same sibling order, same field values on every node. -/
theorem export_import_roundtrip (F : List Project) (st : Json)
    (h : validForest F = true) :
    (handleImportProjects (handleExportProjects F) st).2 = .ok () ∧
      decodeProjects ((handleImportProjects (handleExportProjects F) st).1) = some F := by
  refine ⟨rfl, ?_⟩
  show decodeProjects (encodeProjects F) = some F
  simp [decodeProjects, encodeProjects, decodeForest_encodeForest F h]

/-- Claim C9, witness at a concrete valid forest. -/
theorem export_import_roundtrip_witness :
    validForest forest2000 = true ∧
      ((handleImportProjects (handleExportProjects forest2000) .null).2 = .ok () ∧
        decodeProjects ((handleImportProjects (handleExportProjects forest2000) .null).1) =
          some forest2000) :=
  ⟨by decide, export_import_roundtrip forest2000 .null (by decide)⟩

end SWriter
